import Mathlib

/-!
# Verification of the chunk-identity and incremental-sync core
# of `populate_database.py`

We give a shallow embedding of the three core functions of the script:
`calculate_chunk_ids`, `add_to_chroma` and `clear_database`, and prove the
spec's testable properties about them.

Modelling choices:
* A Python metadata value (`source` is a string, `page` an integer) is a
  `PyVal`; `pyStr` is Python's `str()` applied to it, as used by the
  f-strings in the source.
* A metadata dict is an association list with unique keys in practice;
  `metaGet` models `dict.get` (returning `none` when the key is absent,
  which `str()` renders as `"None"` inside an f-string) and `metaSet`
  models `dict[k] = v` (overwrite-or-append).
* The Chroma store is modelled through the narrow contract the code uses:
  its state is the set of persisted identifiers; the calls the sync code
  makes into its write path are recorded in an explicit trace, so that
  "never passed to add" and "persist runs after add" are statable.
-/

set_option autoImplicit false

namespace PopulateDatabase

/-! ## Decimal rendering of naturals (Python `str(int)`)

`natDigitsAux` is fuel-based structural recursion so that concrete
instances reduce in the kernel; fuel `n + 1` always suffices. -/

def natDigitsAux : Nat → Nat → List Char
  | 0, _ => []
  | fuel + 1, n =>
    if n < 10 then [Nat.digitChar n]
    else natDigitsAux fuel (n / 10) ++ [Nat.digitChar (n % 10)]

/-- Decimal representation of a natural number, as Python `str()` prints it. -/
def natRepr (n : Nat) : String :=
  ⟨natDigitsAux (n + 1) n⟩

/-- Python `str()` of an integer. -/
def intRepr (i : Int) : String :=
  if i < 0 then "-" ++ natRepr i.natAbs else natRepr i.natAbs

/-! ## Python metadata values -/

/-- A metadata value as stored in a chunk's metadata dict: the loader puts a
string under `"source"` and an integer under `"page"`; `calculate_chunk_ids`
stores a string under `"id"`. -/
inductive PyVal where
  | str (s : String)
  | int (i : Int)
deriving DecidableEq, Repr

/-- Python `str()` of a metadata value, as interpolated by an f-string. -/
def pyStr : PyVal → String
  | .str s => s
  | .int i => intRepr i

/-- Python `str()` of the result of `dict.get`: an absent key yields the
`None` object, which prints as `"None"`. -/
def fmtOpt : Option PyVal → String
  | some v => pyStr v
  | none => "None"

/-! ## Documents (chunks) and their metadata dict -/

/-- A langchain `Document`: text content plus a metadata mapping. -/
structure Document where
  page_content : String
  metadata : List (String × PyVal)
deriving DecidableEq, Repr

/-- Default document used with `List.getD`. -/
def dDoc : Document := ⟨"", []⟩

/-- `metadata.get(k)`: first value stored under key `k`, if any. -/
def metaGet : List (String × PyVal) → String → Option PyVal
  | [], _ => none
  | (k', v) :: rest, k => if k' = k then some v else metaGet rest k

/-- `metadata[k] = v`: overwrite the entry for `k`, or append one. -/
def metaSet : List (String × PyVal) → String → PyVal → List (String × PyVal)
  | [], k, v => [(k, v)]
  | (k', v') :: rest, k, v =>
    if k' = k then (k, v) :: rest else (k', v') :: metaSet rest k v

/-- `f"{source}:{page}"` — the page identifier of a chunk, built from the
`source` and `page` metadata with `dict.get`. -/
def pageId (c : Document) : String :=
  fmtOpt (metaGet c.metadata "source") ++ ":" ++ fmtOpt (metaGet c.metadata "page")

/-- `chunk.metadata["id"]` rendered as a string (the code only reads it after
`calculate_chunk_ids` stored a string there). -/
def idOf (c : Document) : String :=
  pyStr ((metaGet c.metadata "id").getD (.str ""))

/-- Store the identifier in the chunk's metadata: `chunk.metadata["id"] = s`. -/
def setId (c : Document) (s : String) : Document :=
  { c with metadata := metaSet c.metadata "id" (.str s) }

/-! ## `calculate_chunk_ids` -/

/-- The loop of `calculate_chunk_ids`: state is `last_page_id`
(`none` before the first chunk) and `current_chunk_index`. -/
def calcGo : Option String → Nat → List Document → List Document
  | _, _, [] => []
  | last, idx, c :: rest =>
    let cur := pageId c
    let newIdx := if some cur = last then idx + 1 else 0
    setId c (cur ++ ":" ++ natRepr newIdx) :: calcGo (some cur) newIdx rest

/-- `calculate_chunk_ids(chunks)`: ids like `"data/monopoly.pdf:6:2"`
(source : page : chunk index). -/
def calculate_chunk_ids (chunks : List Document) : List Document :=
  calcGo none 0 chunks

/-! ## `add_to_chroma` and the store contract -/

/-- A call into the Chroma store's write path, recorded in order. -/
inductive StoreOp where
  | addDocuments (chunks : List Document) (ids : List String)
  | persist
deriving DecidableEq, Repr

/-- `add_to_chroma(chunks)` against a store holding the identifier set
`existing_ids`: returns the resulting persisted identifier set and the
trace of write-path calls made. -/
def add_to_chroma (existing_ids : Finset String) (chunks : List Document) :
    Finset String × List StoreOp :=
  let chunks_with_ids := calculate_chunk_ids chunks
  let new_chunks := chunks_with_ids.filter (fun c => decide (idOf c ∉ existing_ids))
  if new_chunks.length ≠ 0 then
    let new_chunk_ids := new_chunks.map idOf
    (existing_ids ∪ new_chunk_ids.toFinset,
      [StoreOp.addDocuments new_chunks new_chunk_ids, StoreOp.persist])
  else
    (existing_ids, [])

/-! ## `clear_database` -/

/-- The persisted state at the store's storage location (`CHROMA_PATH`):
`none` when nothing exists at that path, otherwise the persisted
identifier set. -/
abbrev ChromaDir := Option (Finset String)

/-- `clear_database()`: `if os.path.exists(CHROMA_PATH): shutil.rmtree(CHROMA_PATH)`. -/
def clear_database (fs : ChromaDir) : ChromaDir :=
  if fs.isSome then none else fs

/-- Modelled from the spec: the Vector Store's identifier query
(`list_ids()` / `db.get`) against a storage location; the store itself is an
external collaborator, and a location holding no persisted state yields the
empty identifier set. -/
def list_ids (fs : ChromaDir) : Finset String :=
  fs.getD ∅

/-! ## Analysis helpers (derived views of the source functions) -/

/-- The chunk-index sequence computed by the loop of `calculate_chunk_ids`. -/
def idxSeq : Option String → Nat → List Document → List Nat
  | _, _, [] => []
  | last, idx, c :: rest =>
    let cur := pageId c
    let newIdx := if some cur = last then idx + 1 else 0
    newIdx :: idxSeq (some cur) newIdx rest

/-- Value of a decimal digit string. -/
def digitsVal (l : List Char) : Nat :=
  l.foldl (fun a c => a * 10 + (c.toNat - 48)) 0

/-- The chunk-index component of an assigned identifier: the decimal value of
the maximal colon-free suffix of the identifier string. -/
def chunkIndexOf (c : Document) : Nat :=
  digitsVal ((idOf c).data.reverse.takeWhile (fun ch => decide (ch ≠ ':'))).reverse

/-! ## Digit lemmas -/

lemma digitChar_toNat (d : Nat) (h : d < 10) : (Nat.digitChar d).toNat = 48 + d := by
  interval_cases d <;> rfl

lemma digitChar_ne_colon (d : Nat) (h : d < 10) : Nat.digitChar d ≠ ':' := by
  interval_cases d <;> decide

lemma natDigitsAux_ne_colon :
    ∀ (fuel n : Nat) (c : Char), c ∈ natDigitsAux fuel n → c ≠ ':' := by
  intro fuel
  induction fuel with
  | zero => intro n c hc; simp [natDigitsAux] at hc
  | succ fuel ih =>
    intro n c hc
    rw [natDigitsAux] at hc
    by_cases h : n < 10
    · rw [if_pos h] at hc
      simp only [List.mem_singleton] at hc
      exact hc ▸ digitChar_ne_colon n h
    · rw [if_neg h] at hc
      rcases List.mem_append.mp hc with h1 | h2
      · exact ih (n / 10) c h1
      · simp only [List.mem_singleton] at h2
        exact h2 ▸ digitChar_ne_colon (n % 10) (Nat.mod_lt n (by omega))

lemma digitsVal_append_singleton (l : List Char) (c : Char) :
    digitsVal (l ++ [c]) = digitsVal l * 10 + (c.toNat - 48) := by
  simp [digitsVal, List.foldl_append]

lemma digitsVal_natDigitsAux :
    ∀ (fuel n : Nat), n < fuel → digitsVal (natDigitsAux fuel n) = n := by
  intro fuel
  induction fuel with
  | zero => intro n h; omega
  | succ fuel ih =>
    intro n h
    rw [natDigitsAux]
    by_cases h10 : n < 10
    · rw [if_pos h10]
      simp [digitsVal, digitChar_toNat n h10]
    · rw [if_neg h10]
      have hdiv : n / 10 < n := Nat.div_lt_self (by omega) (by omega)
      rw [digitsVal_append_singleton, ih (n / 10) (by omega),
        digitChar_toNat (n % 10) (Nat.mod_lt n (by omega))]
      omega

lemma natRepr_data (n : Nat) : (natRepr n).data = natDigitsAux (n + 1) n := rfl

lemma natRepr_val (n : Nat) : digitsVal (natRepr n).data = n :=
  digitsVal_natDigitsAux (n + 1) n (Nat.lt_succ_self n)

lemma natRepr_ne_colon (n : Nat) : ∀ c ∈ (natRepr n).data, c ≠ ':' := by
  intro c hc
  exact natDigitsAux_ne_colon (n + 1) n c hc

/-! ## Last-separator decomposition -/

lemma sep_last_inj :
    ∀ (r1 r2 a b : List Char), (∀ c ∈ r1, c ≠ ':') → (∀ c ∈ r2, c ≠ ':') →
      r1 ++ ':' :: a = r2 ++ ':' :: b → r1 = r2 ∧ a = b := by
  intro r1
  induction r1 with
  | nil =>
    intro r2 a b _ h2 heq
    cases r2 with
    | nil => simpa using heq
    | cons c2 r2' =>
      exfalso
      simp only [List.nil_append, List.cons_append, List.cons.injEq] at heq
      exact h2 c2 (List.mem_cons_self c2 r2') heq.1.symm
  | cons c1 r1' ih =>
    intro r2 a b h1 h2 heq
    cases r2 with
    | nil =>
      exfalso
      simp only [List.nil_append, List.cons_append, List.cons.injEq] at heq
      exact h1 c1 (List.mem_cons_self c1 r1') heq.1
    | cons c2 r2' =>
      simp only [List.cons_append, List.cons.injEq] at heq
      obtain ⟨hhead, htail⟩ := heq
      obtain ⟨hr, hab⟩ := ih r2' a b
        (fun c hc => h1 c (List.mem_cons_of_mem c1 hc))
        (fun c hc => h2 c (List.mem_cons_of_mem c2 hc)) htail
      exact ⟨by rw [hhead, hr], hab⟩

lemma string_data_append (p q : String) : (p ++ q).data = p.data ++ q.data := rfl

lemma string_data_inj {p q : String} (h : p.data = q.data) : p = q := by
  cases p; cases q; exact congrArg String.mk h

/-- The identifier strings `p ++ ":" ++ natRepr m` decompose uniquely at the
last colon. -/
lemma key_inj (p q : String) (m n : Nat)
    (h : p ++ ":" ++ natRepr m = q ++ ":" ++ natRepr n) : p = q ∧ m = n := by
  have hd : p.data ++ ':' :: (natRepr m).data = q.data ++ ':' :: (natRepr n).data := by
    have := congrArg String.data h
    simpa [string_data_append] using this
  have hrev : (natRepr m).data.reverse ++ ':' :: p.data.reverse
      = (natRepr n).data.reverse ++ ':' :: q.data.reverse := by
    have := congrArg List.reverse hd
    simpa [List.reverse_append] using this
  obtain ⟨hmn, hpq⟩ := sep_last_inj _ _ _ _
    (fun c hc => natRepr_ne_colon m c (List.mem_reverse.mp hc))
    (fun c hc => natRepr_ne_colon n c (List.mem_reverse.mp hc)) hrev
  have hp : p = q := string_data_inj (List.reverse_injective hpq)
  have hm : m = n := by
    have : (natRepr m).data = (natRepr n).data := List.reverse_injective hmn
    calc m = digitsVal (natRepr m).data := (natRepr_val m).symm
    _ = digitsVal (natRepr n).data := by rw [this]
    _ = n := natRepr_val n
  exact ⟨hp, hm⟩

lemma takeWhile_all_false (p : Char → Bool) :
    ∀ (xs : List Char) (y : Char) (ys : List Char), (∀ c ∈ xs, p c = true) →
      p y = false → (xs ++ y :: ys).takeWhile p = xs := by
  intro xs
  induction xs with
  | nil => intro y ys _ hy; simp [List.takeWhile, hy]
  | cons x xs' ih =>
    intro y ys hall hy
    have hx : p x = true := hall x (List.mem_cons_self x xs')
    simp only [List.cons_append, List.takeWhile, hx, List.append_eq]
    rw [ih y ys (fun c hc => hall c (List.mem_cons_of_mem x hc)) hy]

/-- Extracting the chunk-index component from an assembled identifier. -/
lemma chunkIndex_extract (p : String) (n : Nat) :
    digitsVal (((p ++ ":" ++ natRepr n).data.reverse.takeWhile
      (fun ch => decide (ch ≠ ':'))).reverse) = n := by
  have hd : (p ++ ":" ++ natRepr n).data = p.data ++ ':' :: (natRepr n).data := by
    simp [string_data_append]
  rw [hd]
  have hrev : (p.data ++ ':' :: (natRepr n).data).reverse
      = (natRepr n).data.reverse ++ ':' :: p.data.reverse := by
    simp [List.reverse_append]
  rw [hrev, takeWhile_all_false _ _ _ _
    (fun c hc => by simpa using natRepr_ne_colon n c (List.mem_reverse.mp hc))
    (by decide)]
  rw [List.reverse_reverse, natRepr_val]

/-! ## Metadata lemmas -/

lemma metaGet_metaSet_same (md : List (String × PyVal)) (k : String) (v : PyVal) :
    metaGet (metaSet md k v) k = some v := by
  induction md with
  | nil => simp [metaSet, metaGet]
  | cons kv rest ih =>
    obtain ⟨k', v'⟩ := kv
    by_cases h : k' = k
    · simp [metaSet, metaGet, h]
    · simp [metaSet, metaGet, h, ih]

lemma metaGet_metaSet_ne (md : List (String × PyVal)) (k k' : String) (v : PyVal)
    (h : k' ≠ k) : metaGet (metaSet md k v) k' = metaGet md k' := by
  induction md with
  | nil => simp [metaSet, metaGet, Ne.symm h]
  | cons kv rest ih =>
    obtain ⟨k0, v0⟩ := kv
    by_cases h0 : k0 = k
    · subst h0
      simp [metaSet, metaGet, Ne.symm h]
    · simp [metaSet, metaGet, h0, ih]

lemma idOf_setId (c : Document) (s : String) : idOf (setId c s) = s := by
  simp [idOf, setId, metaGet_metaSet_same, pyStr]

lemma pageId_setId (c : Document) (s : String) : pageId (setId c s) = pageId c := by
  simp [pageId, setId, metaGet_metaSet_ne _ _ _ _ (by decide : "source" ≠ "id"),
    metaGet_metaSet_ne _ _ _ _ (by decide : "page" ≠ "id")]

/-! ## Structure of `calculate_chunk_ids` -/

lemma calcGo_length : ∀ (cs : List Document) (last : Option String) (idx : Nat),
    (calcGo last idx cs).length = cs.length := by
  intro cs
  induction cs with
  | nil => intro last idx; rfl
  | cons c rest ih => intro last idx; simp [calcGo, ih]

lemma calculate_chunk_ids_length (chunks : List Document) :
    (calculate_chunk_ids chunks).length = chunks.length :=
  calcGo_length chunks none 0

lemma idxSeq_length : ∀ (cs : List Document) (last : Option String) (idx : Nat),
    (idxSeq last idx cs).length = cs.length := by
  intro cs
  induction cs with
  | nil => intro last idx; rfl
  | cons c rest ih => intro last idx; simp [idxSeq, ih]

lemma calcGo_getD : ∀ (cs : List Document) (last : Option String) (idx i : Nat),
    i < cs.length →
    (calcGo last idx cs).getD i dDoc
      = setId (cs.getD i dDoc)
          (pageId (cs.getD i dDoc) ++ ":" ++ natRepr ((idxSeq last idx cs).getD i 0)) := by
  intro cs
  induction cs with
  | nil => intro last idx i h; simp at h
  | cons c rest ih =>
    intro last idx i h
    cases i with
    | zero => simp [calcGo, idxSeq]
    | succ i =>
      simp only [calcGo, idxSeq, List.getD_cons_succ]
      exact ih _ _ i (by simpa using Nat.lt_of_succ_lt_succ (by simpa using h))

lemma idxSeq_consec : ∀ (cs : List Document) (last : Option String) (idx i : Nat),
    i + 1 < cs.length →
    (idxSeq last idx cs).getD (i + 1) 0
      = if pageId (cs.getD (i + 1) dDoc) = pageId (cs.getD i dDoc)
        then (idxSeq last idx cs).getD i 0 + 1 else 0 := by
  intro cs
  induction cs with
  | nil => intro last idx i h; simp at h
  | cons c rest ih =>
    intro last idx i h
    cases i with
    | zero =>
      cases rest with
      | nil => simp at h
      | cons c2 rest2 =>
        by_cases hp : pageId c2 = pageId c <;>
          simp [idxSeq, hp]
    | succ i =>
      simp only [idxSeq, List.getD_cons_succ]
      exact ih _ _ i (by simpa using Nat.lt_of_succ_lt_succ (by simpa using h))

lemma idxSeq_head (c : Document) (rest : List Document) (idx : Nat) :
    (idxSeq none idx (c :: rest)).getD 0 0 = 0 := by
  simp [idxSeq]

lemma idxSeq_run (cs : List Document) (last : Option String) (idx i j : Nat)
    (hij : i ≤ j) :
    j < cs.length →
    (∀ t, i ≤ t → t + 1 ≤ j → pageId (cs.getD (t + 1) dDoc) = pageId (cs.getD t dDoc)) →
    (idxSeq last idx cs).getD j 0 = (idxSeq last idx cs).getD i 0 + (j - i) := by
  induction j, hij using Nat.le_induction with
  | base => intro _ _; simp
  | succ j hij ih =>
    intro hj hrun
    rw [idxSeq_consec cs last idx j hj,
      if_pos (hrun j hij (Nat.le_refl _)),
      ih (by omega) (fun t ht ht' => hrun t ht (by omega))]
    omega

lemma out_getD (chunks : List Document) (i : Nat) (h : i < chunks.length) :
    (calculate_chunk_ids chunks).getD i dDoc
      = setId (chunks.getD i dDoc)
          (pageId (chunks.getD i dDoc) ++ ":" ++ natRepr ((idxSeq none 0 chunks).getD i 0)) :=
  calcGo_getD chunks none 0 i h

lemma out_idOf (chunks : List Document) (i : Nat) (h : i < chunks.length) :
    idOf ((calculate_chunk_ids chunks).getD i dDoc)
      = pageId (chunks.getD i dDoc) ++ ":" ++ natRepr ((idxSeq none 0 chunks).getD i 0) := by
  rw [out_getD chunks i h, idOf_setId]

lemma out_chunkIndex (chunks : List Document) (i : Nat) (h : i < chunks.length) :
    chunkIndexOf ((calculate_chunk_ids chunks).getD i dDoc)
      = (idxSeq none 0 chunks).getD i 0 := by
  rw [chunkIndexOf, out_idOf chunks i h]
  exact chunkIndex_extract _ _

/-! ## Structure of `add_to_chroma` -/

lemma add_to_chroma_nil (db : Finset String) (chunks : List Document)
    (h : (calculate_chunk_ids chunks).filter (fun c => decide (idOf c ∉ db)) = []) :
    add_to_chroma db chunks = (db, []) := by
  simp only [add_to_chroma, h]
  simp

lemma add_to_chroma_pos (db : Finset String) (chunks : List Document)
    (h : (calculate_chunk_ids chunks).filter (fun c => decide (idOf c ∉ db)) ≠ []) :
    add_to_chroma db chunks
      = (db ∪ (((calculate_chunk_ids chunks).filter
            (fun c => decide (idOf c ∉ db))).map idOf).toFinset,
        [StoreOp.addDocuments
            ((calculate_chunk_ids chunks).filter (fun c => decide (idOf c ∉ db)))
            (((calculate_chunk_ids chunks).filter (fun c => decide (idOf c ∉ db))).map idOf),
          StoreOp.persist]) := by
  have hlen : ((calculate_chunk_ids chunks).filter
      (fun c => decide (idOf c ∉ db))).length ≠ 0 := by
    simpa [List.length_eq_zero] using h
  simp only [add_to_chroma, if_pos hlen]

lemma add_fst (db : Finset String) (chunks : List Document) :
    (add_to_chroma db chunks).1
      = db ∪ ((calculate_chunk_ids chunks).map idOf).toFinset := by
  by_cases h : (calculate_chunk_ids chunks).filter (fun c => decide (idOf c ∉ db)) = []
  · rw [add_to_chroma_nil db chunks h]
    have hsub : ((calculate_chunk_ids chunks).map idOf).toFinset ⊆ db := by
      intro a ha
      simp only [List.mem_toFinset, List.mem_map] at ha
      obtain ⟨c, hc, rfl⟩ := ha
      have := List.filter_eq_nil_iff.mp h c hc
      simpa [not_not] using this
    exact (Finset.union_eq_left.mpr hsub).symm
  · rw [add_to_chroma_pos db chunks h]
    ext a
    simp only [Finset.mem_union, List.mem_toFinset, List.mem_map, List.mem_filter]
    constructor
    · rintro (ha | ⟨c, ⟨hc, _⟩, rfl⟩)
      · exact Or.inl ha
      · exact Or.inr ⟨c, hc, rfl⟩
    · rintro (ha | ⟨c, hc, rfl⟩)
      · exact Or.inl ha
      · by_cases hmem : idOf c ∈ db
        · exact Or.inl hmem
        · exact Or.inr ⟨c, ⟨hc, by simpa using hmem⟩, rfl⟩

/-- C3: after `add_to_chroma`, the persisted identifier set is the union of
the prior set and the identifiers of the (identifier-tagged) input chunks; a
chunk whose identifier was already persisted is never passed to
`add_documents`; and whenever `add_documents` is called, `persist` is the
call that follows it before returning. -/
theorem C3_sync_union (db : Finset String) (chunks : List Document) :
    (add_to_chroma db chunks).1 = db ∪ ((calculate_chunk_ids chunks).map idOf).toFinset
    ∧ (∀ cs ids, StoreOp.addDocuments cs ids ∈ (add_to_chroma db chunks).2 →
        ∀ c ∈ cs, idOf c ∉ db)
    ∧ (∀ cs ids, StoreOp.addDocuments cs ids ∈ (add_to_chroma db chunks).2 →
        (add_to_chroma db chunks).2 = [StoreOp.addDocuments cs ids, StoreOp.persist]) := by
  refine ⟨add_fst db chunks, ?_, ?_⟩
  · intro cs ids hmem c hc
    by_cases h : (calculate_chunk_ids chunks).filter (fun c => decide (idOf c ∉ db)) = []
    · rw [add_to_chroma_nil db chunks h] at hmem
      simp at hmem
    · rw [add_to_chroma_pos db chunks h] at hmem
      simp only [List.mem_cons, List.not_mem_nil, or_false] at hmem
      rcases hmem with heq | heq
      · obtain ⟨hcs, -⟩ := StoreOp.addDocuments.inj heq
        subst hcs
        have := (List.mem_filter.mp hc).2
        simpa using this
      · exact absurd heq (by simp)
  · intro cs ids hmem
    by_cases h : (calculate_chunk_ids chunks).filter (fun c => decide (idOf c ∉ db)) = []
    · rw [add_to_chroma_nil db chunks h] at hmem
      simp at hmem
    · rw [add_to_chroma_pos db chunks h] at hmem ⊢
      simp only [List.mem_cons, List.not_mem_nil, or_false] at hmem
      rcases hmem with heq | heq
      · obtain ⟨hcs, hids⟩ := StoreOp.addDocuments.inj heq
        rw [hcs, hids]
      · exact absurd heq (by simp)

/-- C4: sync is idempotent — a second run of `add_to_chroma` with the same
chunk sequence against the store produced by the first run makes no
write-path call and leaves the persisted identifier set unchanged. -/
theorem C4_idempotent_sync (db : Finset String) (chunks : List Document) :
    add_to_chroma ((add_to_chroma db chunks).1) chunks
      = ((add_to_chroma db chunks).1, []) := by
  apply add_to_chroma_nil
  apply List.filter_eq_nil_iff.mpr
  intro c hc
  simp only [decide_eq_true_eq, not_not]
  rw [add_fst db chunks]
  exact Finset.mem_union_right _ (List.mem_toFinset.mpr (List.mem_map_of_mem idOf hc))

/-- C5: when every tagged chunk's identifier is already persisted,
`add_to_chroma` makes no call into the store's write path (neither
`add_documents` nor `persist`) and leaves the store unchanged. -/
theorem C5_noop_on_existing (db : Finset String) (chunks : List Document)
    (h : ∀ c ∈ calculate_chunk_ids chunks, idOf c ∈ db) :
    add_to_chroma db chunks = (db, []) := by
  apply add_to_chroma_nil
  apply List.filter_eq_nil_iff.mpr
  intro c hc
  simp only [decide_eq_true_eq, not_not]
  exact h c hc

/-- Witness for C5 at a concrete store and chunk list. -/
theorem C5_noop_witness :
    (∀ c ∈ calculate_chunk_ids
        [⟨"some text", [("source", PyVal.str "data/monopoly.pdf"), ("page", PyVal.int 6)]⟩],
      idOf c ∈ ({"data/monopoly.pdf:6:0"} : Finset String))
    ∧ add_to_chroma {"data/monopoly.pdf:6:0"}
        [⟨"some text", [("source", PyVal.str "data/monopoly.pdf"), ("page", PyVal.int 6)]⟩]
      = ({"data/monopoly.pdf:6:0"}, []) :=
  ⟨by decide, C5_noop_on_existing _ _ (by decide)⟩

/-! ## Identity assigner: claims -/

/-- C1: the chunk-index component of each assigned identifier obeys the
counter-reset law: it is 0 for the first chunk and whenever the `(source,
page)` page identifier differs from the preceding chunk's, and it is the
preceding chunk's index plus one whenever the page identifier repeats. -/
theorem C1_counter_reset_law (chunks : List Document) :
    (0 < chunks.length →
      chunkIndexOf ((calculate_chunk_ids chunks).getD 0 dDoc) = 0)
    ∧ ∀ i, i + 1 < chunks.length →
      (pageId (chunks.getD (i + 1) dDoc) ≠ pageId (chunks.getD i dDoc) →
        chunkIndexOf ((calculate_chunk_ids chunks).getD (i + 1) dDoc) = 0)
      ∧ (pageId (chunks.getD (i + 1) dDoc) = pageId (chunks.getD i dDoc) →
        chunkIndexOf ((calculate_chunk_ids chunks).getD (i + 1) dDoc)
          = chunkIndexOf ((calculate_chunk_ids chunks).getD i dDoc) + 1) := by
  constructor
  · intro h
    cases chunks with
    | nil => simp at h
    | cons c rest =>
      rw [out_chunkIndex _ 0 (by simp)]
      exact idxSeq_head c rest 0
  · intro i hi
    have hi' : i < chunks.length := by omega
    constructor
    · intro hne
      rw [out_chunkIndex _ _ hi, idxSeq_consec _ _ _ _ hi, if_neg hne]
    · intro heq
      rw [out_chunkIndex _ _ hi, out_chunkIndex _ _ hi', idxSeq_consec _ _ _ _ hi,
        if_pos heq]

/-- Witness for C1: two chunks of the same page get indices 0 and 1. -/
theorem C1_witness :
    chunkIndexOf ((calculate_chunk_ids
      [⟨"u", [("source", PyVal.str "doc.pdf"), ("page", PyVal.int 0)]⟩,
       ⟨"v", [("source", PyVal.str "doc.pdf"), ("page", PyVal.int 0)]⟩]).getD 1 dDoc)
      = chunkIndexOf ((calculate_chunk_ids
      [⟨"u", [("source", PyVal.str "doc.pdf"), ("page", PyVal.int 0)]⟩,
       ⟨"v", [("source", PyVal.str "doc.pdf"), ("page", PyVal.int 0)]⟩]).getD 0 dDoc) + 1 :=
  ((C1_counter_reset_law
      [⟨"u", [("source", PyVal.str "doc.pdf"), ("page", PyVal.int 0)]⟩,
       ⟨"v", [("source", PyVal.str "doc.pdf"), ("page", PyVal.int 0)]⟩]).2
    0 (by decide)).2 (by decide)

/-- Counterexample to C2 as stated: with a non-contiguous `(source, page)`
sequence (page `a:0`, then `b:0`, then `a:0` again) the counter resets and
the first and third chunk receive the same identifier `"a:0:0"`. -/
theorem C2_counterexample :
    ¬ (((calculate_chunk_ids
      [⟨"x", [("source", PyVal.str "a"), ("page", PyVal.int 0)]⟩,
       ⟨"y", [("source", PyVal.str "b"), ("page", PyVal.int 0)]⟩,
       ⟨"z", [("source", PyVal.str "a"), ("page", PyVal.int 0)]⟩]).map idOf).Nodup) := by
  decide

/-- C2 (amended): if equal `(source, page)` page identifiers occur only in
contiguous runs of the input sequence — the ingestion ordering precondition
the spec states — then all identifiers assigned in one run are pairwise
distinct. -/
theorem C2_unique_amended (chunks : List Document)
    (hgrp : ∀ i j k, i ≤ j → j ≤ k → k < chunks.length →
      pageId (chunks.getD k dDoc) = pageId (chunks.getD i dDoc) →
      pageId (chunks.getD j dDoc) = pageId (chunks.getD i dDoc)) :
    ((calculate_chunk_ids chunks).map idOf).Nodup := by
  have hlen : ((calculate_chunk_ids chunks).map idOf).length = chunks.length := by
    simp [calculate_chunk_ids_length]
  show List.Pairwise (· ≠ ·) _
  rw [List.pairwise_iff_getElem]
  intro i j hi hj hij
  have hi' : i < chunks.length := by rwa [hlen] at hi
  have hj' : j < chunks.length := by rwa [hlen] at hj
  have hlen' : (calculate_chunk_ids chunks).length = chunks.length :=
    calculate_chunk_ids_length chunks
  intro heq
  have hic : i < (calculate_chunk_ids chunks).length := by rwa [hlen']
  have hjc : j < (calculate_chunk_ids chunks).length := by rwa [hlen']
  rw [List.getElem_map, List.getElem_map,
    ← List.getD_eq_getElem _ dDoc hic, ← List.getD_eq_getElem _ dDoc hjc,
    out_idOf chunks i hi', out_idOf chunks j hj'] at heq
  obtain ⟨hp, hn⟩ := key_inj _ _ _ _ heq
  have hconsec : ∀ t, i ≤ t → t + 1 ≤ j →
      pageId (chunks.getD (t + 1) dDoc) = pageId (chunks.getD t dDoc) := by
    intro t ht ht1
    have h1 := hgrp i (t + 1) j (by omega) ht1 hj' hp.symm
    have h2 := hgrp i t j ht (by omega) hj' hp.symm
    rw [h1, h2]
  have hrun := idxSeq_run chunks none 0 i j (Nat.le_of_lt hij) hj' hconsec
  omega

/-- Witness for C2 (amended) on a contiguous two-chunk page. -/
theorem C2_amended_witness :
    ((calculate_chunk_ids
      [⟨"p", [("source", PyVal.str "doc.pdf"), ("page", PyVal.int 0)]⟩,
       ⟨"q", [("source", PyVal.str "doc.pdf"), ("page", PyVal.int 0)]⟩]).map idOf).Nodup :=
  C2_unique_amended _ (by
    intro i j k h1 h2 h3 _
    have h3' : k < 2 := by simpa using h3
    interval_cases k <;> interval_cases j <;> interval_cases i <;> rfl)

/-- Helper for C6/C10: the identifiers produced by the loop depend only on
the sequence of page identifiers of the input chunks. -/
lemma calcGo_map_idOf_pageId :
    ∀ (cs1 cs2 : List Document) (last : Option String) (idx : Nat),
      cs1.map pageId = cs2.map pageId →
      (calcGo last idx cs1).map idOf = (calcGo last idx cs2).map idOf := by
  intro cs1
  induction cs1 with
  | nil =>
    intro cs2 last idx h
    cases cs2 with
    | nil => rfl
    | cons c2 rest2 => simp at h
  | cons c rest ih =>
    intro cs2 last idx h
    cases cs2 with
    | nil => simp at h
    | cons c2 rest2 =>
      simp only [List.map_cons, List.cons.injEq] at h
      obtain ⟨hp, ht⟩ := h
      simp only [calcGo, List.map_cons, idOf_setId, hp]
      rw [ih rest2 _ _ ht]

/-- C6: the identity assigner is deterministic — two runs over chunk
sequences that agree pointwise in text content and metadata assign
identical identifier sequences. -/
theorem C6_determinism (cs1 cs2 : List Document)
    (hlen : cs1.length = cs2.length)
    (hsame : ∀ i, i < cs1.length →
      (cs1.getD i dDoc).page_content = (cs2.getD i dDoc).page_content
      ∧ (cs1.getD i dDoc).metadata = (cs2.getD i dDoc).metadata) :
    (calculate_chunk_ids cs1).map idOf = (calculate_chunk_ids cs2).map idOf := by
  have docExt : ∀ a b : Document, a.page_content = b.page_content →
      a.metadata = b.metadata → a = b := by
    intro a b ha hb
    cases a
    cases b
    simp only [Document.mk.injEq]
    exact ⟨ha, hb⟩
  have hcs : cs1 = cs2 := by
    apply List.ext_getElem hlen
    intro n h1 h2
    rw [← List.getD_eq_getElem cs1 dDoc h1, ← List.getD_eq_getElem cs2 dDoc h2]
    obtain ⟨hpc, hmd⟩ := hsame n h1
    exact docExt _ _ hpc hmd
  rw [hcs]

/-- Witness for C6 at a concrete chunk sequence. -/
theorem C6_witness :
    (calculate_chunk_ids
      [⟨"w", [("source", PyVal.str "doc.pdf"), ("page", PyVal.int 2)]⟩]).map idOf
    = (calculate_chunk_ids
      [⟨"w", [("source", PyVal.str "doc.pdf"), ("page", PyVal.int 2)]⟩]).map idOf :=
  C6_determinism _ _ rfl (fun _ _ => ⟨rfl, rfl⟩)

/-- C7: after `clear_database`, the storage location holds no persisted
state, so a subsequent identifier query returns the empty set; and when no
persisted state exists the operation is a no-op. -/
theorem C7_reset_completeness (fs : ChromaDir) :
    list_ids (clear_database fs) = ∅
    ∧ (fs = none → clear_database fs = fs) := by
  cases fs <;> simp [clear_database, list_ids]

/-- C8: chunks lacking a `source` or `page` metadata key are not rejected or
special-cased: the run still tags every chunk, and the `"None"` placeholder
produced for the absent key appears verbatim as that component of the
assigned identifier. -/
theorem C8_missing_metadata (chunks : List Document) (i : Nat)
    (h : i < chunks.length) :
    (calculate_chunk_ids chunks).length = chunks.length
    ∧ (metaGet (chunks.getD i dDoc).metadata "source" = none →
        idOf ((calculate_chunk_ids chunks).getD i dDoc)
          = "None" ++ ":" ++ fmtOpt (metaGet (chunks.getD i dDoc).metadata "page")
            ++ ":" ++ natRepr ((idxSeq none 0 chunks).getD i 0))
    ∧ (metaGet (chunks.getD i dDoc).metadata "page" = none →
        idOf ((calculate_chunk_ids chunks).getD i dDoc)
          = fmtOpt (metaGet (chunks.getD i dDoc).metadata "source") ++ ":" ++ "None"
            ++ ":" ++ natRepr ((idxSeq none 0 chunks).getD i 0)) := by
  refine ⟨calculate_chunk_ids_length chunks, ?_, ?_⟩
  · intro hsrc
    rw [out_idOf chunks i h]
    unfold pageId
    rw [hsrc]
    rfl
  · intro hpg
    rw [out_idOf chunks i h]
    unfold pageId
    rw [hpg]
    rfl

/-- Witness for C8: a chunk with no `source` key is tagged `"None:3:0"`. -/
theorem C8_witness :
    idOf ((calculate_chunk_ids [⟨"orphan", [("page", PyVal.int 3)]⟩]).getD 0 dDoc)
      = "None" ++ ":"
        ++ fmtOpt (metaGet (([⟨"orphan", [("page", PyVal.int 3)]⟩] :
            List Document).getD 0 dDoc).metadata "page")
        ++ ":" ++ natRepr ((idxSeq none 0 [⟨"orphan", [("page", PyVal.int 3)]⟩]).getD 0 0) :=
  (C8_missing_metadata [⟨"orphan", [("page", PyVal.int 3)]⟩] 0 (by decide)).2.1 (by decide)

/-- C9: `calculate_chunk_ids` returns a sequence of the same length and
order; each chunk's text and every metadata key other than `id` are
unchanged, and the only modification is setting the `id` key to a string. -/
theorem C9_frame_preservation (chunks : List Document) :
    (calculate_chunk_ids chunks).length = chunks.length
    ∧ ∀ i, i < chunks.length →
      ((calculate_chunk_ids chunks).getD i dDoc).page_content
        = (chunks.getD i dDoc).page_content
      ∧ (∀ k, k ≠ "id" →
          metaGet ((calculate_chunk_ids chunks).getD i dDoc).metadata k
            = metaGet (chunks.getD i dDoc).metadata k)
      ∧ (∃ s, metaGet ((calculate_chunk_ids chunks).getD i dDoc).metadata "id"
          = some (PyVal.str s)) := by
  refine ⟨calculate_chunk_ids_length chunks, ?_⟩
  intro i hi
  rw [out_getD chunks i hi]
  refine ⟨rfl, ?_, ?_⟩
  · intro k hk
    exact metaGet_metaSet_ne _ _ _ _ hk
  · exact ⟨_, metaGet_metaSet_same _ _ _⟩

/-- C10: assigned identifiers depend only on provenance (`source` and `page`
metadata), not on text content; consequently chunks whose text changed but
whose provenance and position did not keep their identifiers, and a re-sync
of the changed sequence against the updated store inserts nothing. -/
theorem C10_content_independence (cs1 cs2 : List Document)
    (hlen : cs1.length = cs2.length)
    (hsp : ∀ i, i < cs1.length →
      metaGet (cs1.getD i dDoc).metadata "source"
          = metaGet (cs2.getD i dDoc).metadata "source"
      ∧ metaGet (cs1.getD i dDoc).metadata "page"
          = metaGet (cs2.getD i dDoc).metadata "page") :
    (calculate_chunk_ids cs1).map idOf = (calculate_chunk_ids cs2).map idOf
    ∧ ∀ db : Finset String,
        (add_to_chroma ((add_to_chroma db cs1).1) cs2).2 = [] := by
  have hpg : cs1.map pageId = cs2.map pageId := by
    apply List.ext_getElem (by simp [hlen])
    intro n h1 h2
    have hn1 : n < cs1.length := by simpa using h1
    have hn2 : n < cs2.length := by simpa using h2
    rw [List.getElem_map, List.getElem_map,
      ← List.getD_eq_getElem cs1 dDoc hn1, ← List.getD_eq_getElem cs2 dDoc hn2]
    obtain ⟨hs, hp⟩ := hsp n hn1
    unfold pageId
    rw [hs, hp]
  have hids : (calculate_chunk_ids cs1).map idOf = (calculate_chunk_ids cs2).map idOf :=
    calcGo_map_idOf_pageId cs1 cs2 none 0 hpg
  refine ⟨hids, ?_⟩
  intro db
  have hnil : add_to_chroma ((add_to_chroma db cs1).1) cs2
      = ((add_to_chroma db cs1).1, []) := by
    apply add_to_chroma_nil
    apply List.filter_eq_nil_iff.mpr
    intro c hc
    simp only [decide_eq_true_eq, not_not]
    rw [add_fst db cs1]
    apply Finset.mem_union_right
    rw [List.mem_toFinset, hids]
    exact List.mem_map_of_mem idOf hc
  rw [hnil]

/-- Witness for C10: same provenance, different text, same identifiers. -/
theorem C10_witness :
    (calculate_chunk_ids
      [⟨"old text", [("source", PyVal.str "doc.pdf"), ("page", PyVal.int 1)]⟩]).map idOf
    = (calculate_chunk_ids
      [⟨"new text", [("source", PyVal.str "doc.pdf"), ("page", PyVal.int 1)]⟩]).map idOf :=
  (C10_content_independence _ _ rfl (by
    intro i hi
    have hi' : i < 1 := by simpa using hi
    interval_cases i
    exact ⟨rfl, rfl⟩)).1

example : natRepr 0 = "0" := rfl
example : natRepr 123 = "123" := rfl
example : (calculate_chunk_ids
    [⟨"x", [("source", .str "doc.pdf"), ("page", .int 0)]⟩,
     ⟨"y", [("source", .str "doc.pdf"), ("page", .int 0)]⟩,
     ⟨"z", [("source", .str "doc.pdf"), ("page", .int 1)]⟩]).map idOf
    = ["doc.pdf:0:0", "doc.pdf:0:1", "doc.pdf:1:0"] := rfl

end PopulateDatabase
